import Mathlib

/-!
Verification of the tinygrad compiler pipeline specification against the
source, as a shallow embedding in Lean 4.

The embedding covers:
* the micro-op IR (`UOp`) shared by `codegen/lowerer.py` and
  `codegen/uopgraph.py`, with an integer evaluator (booleans evaluate to
  0/1, exactly as the generated C code treats them);
* the view-to-index lowering `_uop_view` / `st_to_uops` of
  `codegen/lowerer.py`;
* the graph rewriter `graph_rewrite` of `codegen/uopgraph.py`;
* the `loop_collapse`, mod-folding and mul-by-zero rules of
  `codegen/uopgraph.py`'s `constant_folder`;
* the verification step and the `DEFINE_ACC` placement step of
  `UOpGraph.linearize`;
* the lazy-buffer realisation and movement-op logic of
  `accel/lazy/ops_lazy.py`;
* the kernel-name derivation of `codegen/linearizer.py`.

Machine integers in the sources are Python ints (arbitrary precision) until
rendering; indices are modelled as `Int`.  The `//` operator on UOps is
rendered as C integer division (`renderer/cstyle.py` renders
`BinaryOps.DIV` as `a/b` on ints), i.e. truncation towards zero, so UOp
`IDIV` is modelled by `Int.tdiv`.
-/

namespace TG

/-- The micro-op kinds used by the embedded fragment of the UOp IR
(`UOps` enum of `codegen/uops.py`, as listed in the spec's data model). -/
inductive UOpKind where
  | SINK | CONST | ALU | SPECIAL | RANGE | EXPAND | CONTRACT | REDUCE
  | DEFINE_GLOBAL | DEFINE_LOCAL | DEFINE_ACC | DEFINE_VAR | LOAD | STORE
  | PHI | BARRIER | IF | ENDIF | ENDRANGE | NOOP | CAST | BITCAST
  | VECTORIZE | GEP | WMMA
  deriving DecidableEq, Repr

/-- Data types carried by UOps (subset of `tinygrad.dtype` that the
embedded code paths touch; `void` stands for Python `None`). -/
inductive DTy where
  | void | bool | int32 | pyint | float32 | float16
  deriving DecidableEq, Repr

/-- ALU operations (from `tinygrad.ops.BinaryOps` / `UnaryOps` /
`TernaryOps`; only the ones the embedded rules build or inspect). -/
inductive AluOp where
  | ADD | SUB | MUL | IDIV | MOD | MAX | CMPLT | CMPGE | WHERE | NEG
  deriving DecidableEq, Repr

/-- Reduce operations (`tinygrad.ops.ReduceOps`). -/
inductive RedOp where
  | SUM | RMAX
  deriving DecidableEq, Repr

/-- Float payloads.  Only the NaN/infinity distinction matters to the
embedded rules (`math.isnan` / `math.isinf` in `constant_folder`), so a
float constant is a tag plus an integer payload for finite values. -/
inductive FVal where
  | nan | inf | ninf | fin (v : Int)
  deriving DecidableEq, Repr

/-- UOp arguments: the `arg` field is a Python value; the embedded code
paths only store these shapes in it. -/
inductive UArg where
  | none
  | int (n : Int)
  | flt (f : FVal)
  | boolean (b : Bool)
  | alu (op : AluOp)
  | red (op : RedOp)
  | loop (idx : Int) (isReduce : Bool)
  | special (name : String) (size : Int)
  | accnum (n : Int)
  | gidx (n : Nat)
  deriving DecidableEq, Repr

/-- A micro-op: `UOp(op, dtype, src, arg)` from `codegen/uops.py`.  The
sources hash-cons UOps, so object identity coincides with structural
equality; the Lean structural equality is therefore the faithful notion of
UOp equality. -/
inductive UOp where
  | mk (op : UOpKind) (dtype : DTy) (src : List UOp) (arg : UArg)

mutual

/-- Boolean structural equality on UOps. -/
def UOp.beq : UOp → UOp → Bool
  | .mk o1 d1 s1 a1, .mk o2 d2 s2 a2 =>
    o1 == o2 && d1 == d2 && UOp.beqList s1 s2 && a1 == a2

/-- Boolean structural equality on UOp lists. -/
def UOp.beqList : List UOp → List UOp → Bool
  | [], [] => true
  | x :: xs, y :: ys => UOp.beq x y && UOp.beqList xs ys
  | _, _ => false

end

mutual

theorem UOp.beq_iff : ∀ a b : UOp, UOp.beq a b = true ↔ a = b
  | .mk o1 d1 s1 a1, .mk o2 d2 s2 a2 => by
    rw [UOp.beq]
    simp only [Bool.and_eq_true, beq_iff_eq, UOp.mk.injEq]
    rw [UOp.beqList_iff s1 s2]
    tauto

theorem UOp.beqList_iff : ∀ a b : List UOp, UOp.beqList a b = true ↔ a = b
  | [], [] => by simp [UOp.beqList]
  | [], _ :: _ => by simp [UOp.beqList]
  | _ :: _, [] => by simp [UOp.beqList]
  | x :: xs, y :: ys => by
    rw [UOp.beqList]
    simp only [Bool.and_eq_true, List.cons.injEq]
    rw [UOp.beq_iff x y, UOp.beqList_iff xs ys]

end

instance : DecidableEq UOp := fun a b => decidable_of_iff _ (UOp.beq_iff a b)

/-- The op kind of a UOp. -/
def UOp.op : UOp → UOpKind
  | .mk o _ _ _ => o

/-- The dtype of a UOp. -/
def UOp.dtype : UOp → DTy
  | .mk _ d _ _ => d

/-- The sources of a UOp. -/
def UOp.src : UOp → List UOp
  | .mk _ _ s _ => s

/-- The argument of a UOp. -/
def UOp.arg : UOp → UArg
  | .mk _ _ _ a => a

/-- An integer constant UOp (`UOp.const(dtypes.pyint, x)`). -/
def constI (n : Int) : UOp := .mk .CONST .pyint [] (.int n)

/-- The boolean constant `UOp.const(dtypes.bool, b)`. -/
def constB (b : Bool) : UOp := .mk .CONST .bool [] (.boolean b)

/-- `a + b` on UOps: builds the ADD ALU node (the arithmetic dunders of
`codegen/uops.py`, absent from src/, construct exactly this node per the
spec's `alu(op, children)` helper). -/
def uadd (a b : UOp) : UOp := .mk .ALU a.dtype [a, b] (.alu .ADD)

/-- `a - b` on UOps. -/
def usub (a b : UOp) : UOp := .mk .ALU a.dtype [a, b] (.alu .SUB)

/-- `a * b` on UOps. -/
def umul (a b : UOp) : UOp := .mk .ALU a.dtype [a, b] (.alu .MUL)

/-- `a // b` on UOps (C-style integer division once rendered). -/
def uidiv (a b : UOp) : UOp := .mk .ALU a.dtype [a, b] (.alu .IDIV)

/-- `a % b` on UOps. -/
def umod (a b : UOp) : UOp := .mk .ALU a.dtype [a, b] (.alu .MOD)

/-- `a.lt(b)` on UOps: boolean-valued comparison node. -/
def ult (a b : UOp) : UOp := .mk .ALU .bool [a, b] (.alu .CMPLT)

/-- `a.ge(b)` on UOps: boolean-valued comparison node (the spec's symbolic
language has a `Ge` node; `codegen/lowerer.py` calls `idx.ge(...)`). -/
def uge (a b : UOp) : UOp := .mk .ALU .bool [a, b] (.alu .CMPGE)

/-- `-a` on UOps. -/
def uneg (a : UOp) : UOp := .mk .ALU a.dtype [a] (.alu .NEG)

/-- `UOp.max(a, b)`. -/
def umax (a b : UOp) : UOp := .mk .ALU a.dtype [a, b] (.alu .MAX)

/-- `UOp.min(a, b)`: the sources define min through max by negation. -/
def umin (a b : UOp) : UOp := uneg (umax (uneg a) (uneg b))

/-- `gate.where(a, b)` on UOps. -/
def uwhere (g a b : UOp) : UOp := .mk .ALU a.dtype [g, a, b] (.alu .WHERE)

/-- `x.cast(dt)` on UOps. -/
def ucast (dt : DTy) (a : UOp) : UOp := .mk .CAST dt [a] .none

/-- Integer evaluation of a UOp expression.  Booleans evaluate to 0/1,
matching both the generated C (`renderer/cstyle.py` renders `WHERE` as
`a!=0?b:c` and comparisons as `<`) and the multiplicative use of boolean
validity masks in `codegen/lowerer.py`.  `IDIV` truncates towards zero as
C division does.  Leaves that are not constants (RANGE, SPECIAL,
DEFINE_VAR, LOAD, ...) are looked up in the environment. -/
def uveal (env : UOp → Int) : UOp → Int
  | .mk .CONST _ _ (.int n) => n
  | .mk .CONST _ _ (.boolean b) => if b then 1 else 0
  | .mk .ALU _ [a, b] (.alu .ADD) => uveal env a + uveal env b
  | .mk .ALU _ [a, b] (.alu .SUB) => uveal env a - uveal env b
  | .mk .ALU _ [a, b] (.alu .MUL) => uveal env a * uveal env b
  | .mk .ALU _ [a, b] (.alu .IDIV) => Int.tdiv (uveal env a) (uveal env b)
  | .mk .ALU _ [a, b] (.alu .MOD) => Int.emod (uveal env a) (uveal env b)
  | .mk .ALU _ [a, b] (.alu .MAX) => max (uveal env a) (uveal env b)
  | .mk .ALU _ [a, b] (.alu .CMPLT) => if uveal env a < uveal env b then 1 else 0
  | .mk .ALU _ [a, b] (.alu .CMPGE) => if uveal env b ≤ uveal env a then 1 else 0
  | .mk .ALU _ [a] (.alu .NEG) => -(uveal env a)
  | .mk .ALU _ [g, a, b] (.alu .WHERE) => if uveal env g ≠ 0 then uveal env a else uveal env b
  | .mk .CAST _ [a] _ => uveal env a
  | u => env u

/-! ## C1: `_uop_view` / `st_to_uops` (codegen/lowerer.py)

A `View` is the per-view record of the shape-tracker data model
(`shape, strides, offset, mask`).  The claim concerns integer views, the
branch of `variable_to_uop` that emits a `CONST`. -/

/-- One shape-tracker view with concrete integer entries. -/
structure View where
  shape : List Int
  strides : List Int
  offset : Int
  mask : Option (List (Int × Int))

/-- `variable_to_uop` on an `int` (codegen/lowerer.py line 15). -/
def variable_to_uop (x : Int) : UOp := constI x

/-- The mask list iterated by `_uop_view`: the view's mask, or one `None`
per axis when the view has no mask. -/
def viewMasks (v : View) : List (Option (Int × Int)) :=
  match v.mask with
  | Option.none => List.replicate v.shape.length Option.none
  | some m => m.map some

/-- The Python `zip(idxs, view.shape, view.strides, masks)`: pairs up the
four per-axis streams, stopping at the shortest. -/
def zipAxes : List UOp → List Int → List Int → List (Option (Int × Int)) →
    List (UOp × Int × Int × Option (Int × Int))
  | i :: is, s :: ss, t :: ts, m :: ms => (i, s, t, m) :: zipAxes is ss ts ms
  | _, _, _, _ => []

/-- The loop body of `_uop_view` (codegen/lowerer.py lines 29-33), folded
over the zipped axes: accumulates the index expression `iexpr` and the
validity expression `vexpr`. -/
def uopViewGo : List (UOp × Int × Int × Option (Int × Int)) → UOp → UOp → UOp × UOp
  | [], ie, ve => (ie, ve)
  | (idx, sh, st, m) :: rest, ie, ve =>
    let ie2 := if sh ≠ 1 ∧ st ≠ 0 then uadd ie (umul idx (variable_to_uop st)) else ie
    let ve2 :=
      match m with
      | Option.none => ve
      | some p =>
        let v1 := if p.1 ≠ 0 then umul ve (uge idx (variable_to_uop p.1)) else ve
        if p.2 ≠ sh then umul v1 (ult idx (variable_to_uop p.2)) else v1
    uopViewGo rest ie2 ve2

/-- `_uop_view(view, idxs, vexpr)` (codegen/lowerer.py lines 26-34). -/
def uop_view (v : View) (idxs : List UOp) (vexpr : UOp) : UOp × UOp :=
  uopViewGo (zipAxes idxs v.shape v.strides (viewMasks v)) (variable_to_uop v.offset) vexpr

/-- `st_to_uops(st, idxs)` (codegen/lowerer.py lines 37-47) for a
single-view shape tracker: `_uop_view(views[-1], idxs, const(bool, True))`. -/
def st_to_uops_single (v : View) (idxs : List UOp) : UOp × UOp :=
  uop_view v idxs (constB true)

theorem uveal_uadd (env : UOp → Int) (a b : UOp) :
    uveal env (uadd a b) = uveal env a + uveal env b := rfl

theorem uveal_umul (env : UOp → Int) (a b : UOp) :
    uveal env (umul a b) = uveal env a * uveal env b := rfl

theorem uveal_uge (env : UOp → Int) (a b : UOp) :
    uveal env (uge a b) = if uveal env b ≤ uveal env a then 1 else 0 := rfl

theorem uveal_ult (env : UOp → Int) (a b : UOp) :
    uveal env (ult a b) = if uveal env a < uveal env b then 1 else 0 := rfl

theorem uveal_constI (env : UOp → Int) (n : Int) : uveal env (constI n) = n := rfl

theorem uveal_vtu (env : UOp → Int) (n : Int) : uveal env (variable_to_uop n) = n := rfl

theorem uveal_constB (env : UOp → Int) (b : Bool) :
    uveal env (constB b) = if b then 1 else 0 := rfl

/-- Whether one zipped axis entry satisfies its mask bounds
(trivially true for an unmasked axis). -/
def axOkB (env : UOp → Int) (a : UOp × Int × Int × Option (Int × Int)) : Bool :=
  match a.2.2.2 with
  | Option.none => true
  | some p => decide (p.1 ≤ uveal env a.1) && decide (uveal env a.1 < p.2)

theorem uopViewGo_fst (env : UOp → Int) :
    ∀ (l : List (UOp × Int × Int × Option (Int × Int))) (ie ve : UOp),
    uveal env (uopViewGo l ie ve).1
      = uveal env ie +
        (l.map fun a => if a.2.1 ≠ 1 ∧ a.2.2.1 ≠ 0 then uveal env a.1 * a.2.2.1 else 0).sum
  | [], ie, ve => by simp [uopViewGo]
  | (idx, sh, st, m) :: rest, ie, ve => by
    simp only [uopViewGo]
    rw [uopViewGo_fst env rest]
    simp only [List.map_cons, List.sum_cons]
    by_cases h : sh ≠ 1 ∧ st ≠ 0
    · rw [if_pos h, if_pos h, uveal_uadd, uveal_umul, uveal_vtu]
      ring
    · rw [if_neg h, if_neg h]
      ring

theorem uopViewGo_snd (env : UOp → Int) :
    ∀ (l : List (UOp × Int × Int × Option (Int × Int))) (ie ve : UOp),
    (∀ a ∈ l, 0 ≤ uveal env a.1 ∧ uveal env a.1 < a.2.1) →
    uveal env (uopViewGo l ie ve).2
      = uveal env ve * (if l.all (axOkB env) then 1 else 0)
  | [], ie, ve, _ => by simp [uopViewGo]
  | (idx, sh, st, m) :: rest, ie, ve, hr => by
    have hhead := hr (idx, sh, st, m) (by simp)
    simp only at hhead
    simp only [uopViewGo]
    rw [uopViewGo_snd env rest _ _ (fun a ha => hr a (List.mem_cons_of_mem _ ha))]
    rw [List.all_cons]
    cases m with
    | none =>
      have hax : axOkB env (idx, sh, st, Option.none) = true := rfl
      rw [hax, Bool.true_and]
    | some p =>
      obtain ⟨p0, p1⟩ := p
      have hax : axOkB env (idx, sh, st, some (p0, p1))
          = (decide (p0 ≤ uveal env idx) && decide (uveal env idx < p1)) := rfl
      rw [hax]
      have key : uveal env (if p1 ≠ sh then
            umul (if p0 ≠ 0 then umul ve (uge idx (variable_to_uop p0)) else ve)
              (ult idx (variable_to_uop p1))
          else (if p0 ≠ 0 then umul ve (uge idx (variable_to_uop p0)) else ve))
          = uveal env ve *
            ((if p0 ≤ uveal env idx then 1 else 0) * (if uveal env idx < p1 then 1 else 0)) := by
        by_cases h0 : p0 ≠ 0 <;> by_cases h1 : p1 ≠ sh
        · rw [if_pos h1, if_pos h0, uveal_umul, uveal_umul, uveal_uge, uveal_ult,
            uveal_vtu, uveal_vtu]
          ring
        · rw [if_neg h1, if_pos h0, uveal_umul, uveal_uge, uveal_vtu]
          have hsh : p1 = sh := by omega
          rw [if_pos (show uveal env idx < p1 by omega), mul_one]
        · rw [if_pos h1, if_neg h0, uveal_umul, uveal_ult, uveal_vtu]
          have h0' : p0 = 0 := by omega
          rw [if_pos (show p0 ≤ uveal env idx by omega), one_mul]
        · rw [if_neg h1, if_neg h0]
          have hsh : p1 = sh := by omega
          rw [if_pos (show p0 ≤ uveal env idx by omega),
            if_pos (show uveal env idx < p1 by omega)]
          ring
      rw [key]
      by_cases hA : p0 ≤ uveal env idx
      · by_cases hB : uveal env idx < p1
        · rw [if_pos hA, if_pos hB, decide_eq_true hA, decide_eq_true hB,
            Bool.true_and, Bool.true_and]
          ring
        · rw [if_pos hA, if_neg hB, decide_eq_true hA, decide_eq_false hB,
            Bool.true_and, Bool.false_and]
          simp
      · rw [if_neg hA, decide_eq_false hA, Bool.false_and]
        simp

theorem zipAxes_sum (env : UOp → Int) :
    ∀ (idxs : List UOp) (shl stl : List Int) (ms : List (Option (Int × Int))),
    (∀ a ∈ zipAxes idxs shl stl ms, 0 ≤ uveal env a.1 ∧ uveal env a.1 < a.2.1) →
    shl.length = idxs.length → stl.length = idxs.length → ms.length = idxs.length →
    ((zipAxes idxs shl stl ms).map
        fun a => if a.2.1 ≠ 1 ∧ a.2.2.1 ≠ 0 then uveal env a.1 * a.2.2.1 else 0).sum
      = (List.zipWith (fun iu t => uveal env iu * t) idxs stl).sum
  | [], shl, stl, ms, _, _, hst, _ => by
    have : stl = [] := List.length_eq_zero.mp hst
    subst this
    simp [zipAxes]
  | i :: is, [], stl, ms, _, hsh, _, _ => by simp at hsh
  | i :: is, s :: ss, [], ms, _, _, hst, _ => by simp at hst
  | i :: is, s :: ss, t :: ts, [], _, _, _, hms => by simp at hms
  | i :: is, s :: ss, t :: ts, m :: msr, hr, hsh, hst, hms => by
    simp only [zipAxes, List.map_cons, List.sum_cons, List.zipWith_cons_cons]
    have hhead := hr (i, s, t, m) (by simp [zipAxes])
    simp only at hhead
    rw [zipAxes_sum env is ss ts msr
      (fun a ha => hr a (by simp only [zipAxes]; exact List.mem_cons_of_mem _ ha))
      (by simpa using hsh) (by simpa using hst) (by simpa using hms)]
    congr 1
    by_cases h : s ≠ 1 ∧ t ≠ 0
    · rw [if_pos h]
    · rw [if_neg h]
      rcases not_and_or.mp h with h1 | h2
      · have hs1 : s = 1 := by omega
        have : uveal env i = 0 := by omega
        rw [this, zero_mul]
      · have ht0 : t = 0 := by omega
        rw [ht0, mul_zero]

/-- C1: for a view `(shape, strides, offset, mask)` and in-range index
UOps `idxs` (`0 ≤ i_k < shape_k` on every axis), the flat-index
expression built by `_uop_view` (entered through `st_to_uops` with
validity `const(bool, True)`) evaluates to
`offset + Σ_k i_k · strides_k` — axes with `shape_k = 1` or
`strides_k = 0` contribute nothing — and the validity expression
evaluates to true (1) iff every masked axis `k` satisfies
`mask_k.0 ≤ i_k < mask_k.1`. -/
theorem c1_uop_view_index_and_validity
    (v : View) (idxs : List UOp) (env : UOp → Int)
    (hs : v.shape.length = idxs.length) (ht : v.strides.length = idxs.length)
    (hm : ∀ m, v.mask = some m → m.length = idxs.length)
    (hr : ∀ a ∈ zipAxes idxs v.shape v.strides (viewMasks v),
            0 ≤ uveal env a.1 ∧ uveal env a.1 < a.2.1) :
    uveal env (st_to_uops_single v idxs).1
        = v.offset + (List.zipWith (fun iu t => uveal env iu * t) idxs v.strides).sum
    ∧ (uveal env (st_to_uops_single v idxs).2 = 1
        ↔ (zipAxes idxs v.shape v.strides (viewMasks v)).all (axOkB env) = true) := by
  have hmlen : (viewMasks v).length = idxs.length := by
    unfold viewMasks
    cases hv : v.mask with
    | none => simpa using hs
    | some m => simpa using hm m hv
  constructor
  · rw [st_to_uops_single, uop_view, uopViewGo_fst, uveal_vtu,
      zipAxes_sum env idxs v.shape v.strides (viewMasks v) hr hs ht hmlen]
  · rw [st_to_uops_single, uop_view,
      uopViewGo_snd env (zipAxes idxs v.shape v.strides (viewMasks v)) _ _ hr,
      uveal_constB]
    cases hall : (zipAxes idxs v.shape v.strides (viewMasks v)).all (axOkB env) <;>
      simp [hall]

/-- A concrete view used by witnesses: shape (4, 1, 3), strides (3, 0, 1),
offset 5, mask ((0,4), (0,1), (1,3)). -/
def viewW : View :=
  { shape := [4, 1, 3], strides := [3, 0, 1], offset := 5,
    mask := some [(0, 4), (0, 1), (1, 3)] }

/-- Concrete index atoms for the witness (RANGE loop variables). -/
def idxW (k : Int) : UOp := .mk .RANGE .pyint [] (.loop k false)

/-- A concrete environment assigning (2, 0, 1) to the three loop
variables. -/
def envW : UOp → Int :=
  fun u => if u = idxW 0 then 2 else if u = idxW 1 then 0 else if u = idxW 2 then 1 else 0

/-- Witness for C1: on `viewW` at index (2, 0, 1) the built index
expression evaluates to 5 + 2·3 + 0·0 + 1·1 = 12 and the validity
expression evaluates to true. -/
theorem c1_witness :
    uveal envW (st_to_uops_single viewW [idxW 0, idxW 1, idxW 2]).1 = 12
    ∧ uveal envW (st_to_uops_single viewW [idxW 0, idxW 1, idxW 2]).2 = 1 := by
  have h := c1_uop_view_index_and_validity viewW [idxW 0, idxW 1, idxW 2] envW
    (by decide) (by decide)
    (by intro m hm; rw [show viewW.mask = some [((0:Int), (4:Int)), (0, 1), (1, 3)] from rfl] at hm
        cases hm; decide)
    (by decide)
  refine ⟨?_, ?_⟩
  · rw [h.1]; decide
  · rw [h.2]; decide

/-! ## C2: `graph_rewrite` (codegen/uopgraph.py lines 434-443)

`graph_rewrite(sink, pm)` performs memoised post-order rewriting: children
are rewritten first, the node is rebuilt from the rewritten children
(`UOp(*replace_source)`), the matcher is applied to the rebuilt node, and
a successful rewrite is recursively rewritten again.  The matcher argument
is the semantic content of `PatternMatcher.rewrite`: a pure function of
the node's structure returning the first matching rule's build result, or
none.  The memo tables (`nodes`, `replace`) cache only what this pure
recursion recomputes, so they are dropped.  The Python recursion is
unbounded (a diverging rule set never returns); `fuel` makes the Lean
function total, with `none` modelling a call that does not return. -/

/-- Collects a list of optional results, failing if any is `none`. -/
def allSome : List (Option UOp) → Option (List UOp)
  | [] => some []
  | Option.none :: _ => Option.none
  | some v :: rest =>
    match allSome rest with
    | some vs => some (v :: vs)
    | Option.none => Option.none

/-- `graph_rewrite(root, pm)` (codegen/uopgraph.py lines 434-443); see the
section comment. -/
def graph_rewrite (rw : UOp → Option UOp) : Nat → UOp → Option UOp
  | 0, _ => Option.none
  | fuel+1, u =>
    match allSome (u.src.map (graph_rewrite rw fuel)) with
    | Option.none => Option.none
    | some ss =>
      match rw (UOp.mk u.op u.dtype ss u.arg) with
      | Option.none => some (UOp.mk u.op u.dtype ss u.arg)
      | some y => graph_rewrite rw fuel y

theorem allSome_map_of_pointwise {f g : UOp → Option UOp} :
    ∀ {ss vs : List UOp}, allSome (ss.map f) = some vs →
    (∀ u v, f u = some v → g u = some v) →
    allSome (ss.map g) = some vs := by
  intro ss
  induction ss with
  | nil => intro vs h _; simpa [allSome] using h
  | cons x xs ih =>
    intro vs h hfg
    simp only [List.map_cons] at h ⊢
    cases hx : f x with
    | none => rw [hx] at h; exact absurd h (by simp [allSome])
    | some v =>
      rw [hx] at h
      rw [hfg x v hx]
      cases hxs : allSome (xs.map f) with
      | none => rw [allSome, hxs] at h; exact absurd h (by simp)
      | some vs' =>
        rw [allSome, hxs] at h
        rw [allSome, ih hxs hfg]
        simpa using h

theorem allSome_map_mem {f : UOp → Option UOp} :
    ∀ {ss vs : List UOp}, allSome (ss.map f) = some vs →
    ∀ v ∈ vs, ∃ u ∈ ss, f u = some v := by
  intro ss
  induction ss with
  | nil =>
    intro vs h v hv
    simp [allSome] at h
    subst h
    simp at hv
  | cons x xs ih =>
    intro vs h v hv
    simp only [List.map_cons] at h
    cases hx : f x with
    | none => rw [hx] at h; exact absurd h (by simp [allSome])
    | some w =>
      rw [hx] at h
      cases hxs : allSome (xs.map f) with
      | none => rw [allSome, hxs] at h; exact absurd h (by simp)
      | some vs' =>
        rw [allSome, hxs] at h
        have hvs : vs = w :: vs' := by simpa using h.symm
        subst hvs
        rcases List.mem_cons.mp hv with hvw | hvtail
        · exact ⟨x, by simp, hvw ▸ hx⟩
        · rcases ih hxs v hvtail with ⟨u, hu, hfu⟩
          exact ⟨u, by simp [hu], hfu⟩

theorem allSome_map_id {g : UOp → Option UOp} :
    ∀ {ss : List UOp}, (∀ s ∈ ss, g s = some s) → allSome (ss.map g) = some ss := by
  intro ss
  induction ss with
  | nil => intro _; simp [allSome]
  | cons x xs ih =>
    intro h
    simp only [List.map_cons]
    rw [h x (by simp), allSome, ih (fun s hs => h s (by simp [hs]))]

theorem graph_rewrite_mono (rw : UOp → Option UOp) :
    ∀ fuel fuel', fuel ≤ fuel' → ∀ u v,
    graph_rewrite rw fuel u = some v → graph_rewrite rw fuel' u = some v := by
  intro fuel
  induction fuel with
  | zero => intro fuel' _ u v h; simp [graph_rewrite] at h
  | succ n ih =>
    intro fuel' hle u v h
    obtain ⟨m, rfl⟩ : ∃ m, fuel' = m + 1 := ⟨fuel' - 1, by omega⟩
    have hnm : n ≤ m := by omega
    rw [graph_rewrite] at h ⊢
    cases hls : allSome (u.src.map (graph_rewrite rw n)) with
    | none => rw [hls] at h; simp at h
    | some ss =>
      rw [hls] at h
      rw [allSome_map_of_pointwise hls (fun a b => ih m hnm a b)]
      simp only at h ⊢
      cases hrw : rw (UOp.mk u.op u.dtype ss u.arg) with
      | none => rw [hrw] at h; exact h
      | some y => rw [hrw] at h; exact ih m hnm y v h

theorem graph_rewrite_fixed (rw : UOp → Option UOp) :
    ∀ fuel u v, graph_rewrite rw fuel u = some v → graph_rewrite rw fuel v = some v := by
  intro fuel
  induction fuel with
  | zero => intro u v h; simp [graph_rewrite] at h
  | succ n ih =>
    intro u v h
    rw [graph_rewrite] at h
    cases hls : allSome (u.src.map (graph_rewrite rw n)) with
    | none => rw [hls] at h; simp at h
    | some ss =>
      rw [hls] at h
      simp only at h
      cases hrw : rw (UOp.mk u.op u.dtype ss u.arg) with
      | none =>
        rw [hrw] at h
        simp only [Option.some.injEq] at h
        subst h
        rw [graph_rewrite]
        have hself : ∀ s ∈ ss, graph_rewrite rw n s = some s := by
          intro s hs
          rcases allSome_map_mem hls s hs with ⟨orig, _, horig⟩
          exact ih orig s horig
        rw [show (UOp.mk u.op u.dtype ss u.arg).src = ss from rfl,
          allSome_map_id hself]
        simp only
        rw [show (UOp.mk (UOp.mk u.op u.dtype ss u.arg).op
          (UOp.mk u.op u.dtype ss u.arg).dtype ss
          (UOp.mk u.op u.dtype ss u.arg).arg) = UOp.mk u.op u.dtype ss u.arg from rfl]
        rw [hrw]
      | some y =>
        rw [hrw] at h
        exact graph_rewrite_mono rw n (n+1) (by omega) v v (ih y v h)

/-- C2: `graph_rewrite` is idempotent: whenever a rewrite of the graph
rooted at `g` with pattern matcher `pm` returns a result `r`, rewriting
`r` again with the same matcher returns `r` itself, structurally
unchanged (UOps are hash-consed, so structural equality is UOp
equality).  The fuel argument makes the unbounded Python recursion total;
any run that returns is covered. -/
theorem c2_graph_rewrite_idempotent (pm : UOp → Option UOp) (fuel : Nat) (g r : UOp)
    (h : graph_rewrite pm fuel g = some r) : graph_rewrite pm fuel r = some r :=
  graph_rewrite_fixed pm fuel g r h

/-- A concrete one-rule matcher for the witness: fold ADD of two integer
constants (the shape of `constant_folder`'s constant-folding rule). -/
def rwW : UOp → Option UOp
  | .mk .ALU dt [.mk .CONST _ [] (.int a), .mk .CONST _ [] (.int b)] (.alu .ADD) =>
    some (.mk .CONST dt [] (.int (a + b)))
  | _ => Option.none

/-- Witness for C2: rewriting `SINK(1 + 2)` folds to `SINK(3)`, and
rewriting the result again returns it unchanged. -/
theorem c2_witness :
    graph_rewrite rwW 3 (UOp.mk .SINK .void [uadd (constI 1) (constI 2)] .none)
        = some (UOp.mk .SINK .void [.mk .CONST .pyint [] (.int 3)] .none)
    ∧ graph_rewrite rwW 3 (UOp.mk .SINK .void [.mk .CONST .pyint [] (.int 3)] .none)
        = some (UOp.mk .SINK .void [.mk .CONST .pyint [] (.int 3)] .none) :=
  ⟨by decide, c2_graph_rewrite_idempotent rwW 3
    (UOp.mk .SINK .void [uadd (constI 1) (constI 2)] .none)
    (UOp.mk .SINK .void [.mk .CONST .pyint [] (.int 3)] .none) (by decide)⟩

/-! ## C3: `loop_collapse` (codegen/uopgraph.py lines 120-130)

The arange-pattern rules of `constant_folder` (lines 170-182) match a SUM
`REDUCE` whose body is `((idx + mval*rng).lt(compval)).where(multconst, 0)`
with `rng` a `RANGE(loop_start, loop_end)` and `mval, compval, multconst`
constants, and call `loop_collapse` with the bound pieces.  The optional
`idx2`/`idx3` bindings are pre-added to `idx` by the extra patterns, so the
base signature is modelled.  `getenv("DISABLE_LOOP_COLLAPSE")` is 0 in the
default environment and is modelled as false. -/

theorem uveal_usub (env : UOp → Int) (a b : UOp) :
    uveal env (usub a b) = uveal env a - uveal env b := rfl

theorem uveal_uidiv (env : UOp → Int) (a b : UOp) :
    uveal env (uidiv a b) = Int.tdiv (uveal env a) (uveal env b) := rfl

theorem uveal_umax (env : UOp → Int) (a b : UOp) :
    uveal env (umax a b) = max (uveal env a) (uveal env b) := rfl

theorem uveal_uneg (env : UOp → Int) (a : UOp) :
    uveal env (uneg a) = -(uveal env a) := rfl

theorem uveal_umin (env : UOp → Int) (a b : UOp) :
    uveal env (umin a b) = min (uveal env a) (uveal env b) := by
  show -(max (-(uveal env a)) (-(uveal env b))) = min (uveal env a) (uveal env b)
  omega

theorem uveal_ucast (env : UOp → Int) (dt : DTy) (a : UOp) :
    uveal env (ucast dt a) = uveal env a := rfl

theorem uveal_uwhere (env : UOp → Int) (g a b : UOp) :
    uveal env (uwhere g a b)
      = if uveal env g ≠ 0 then uveal env a else uveal env b := rfl

/-- `loop_collapse(loop_start, loop_end, compval, idx, mval, multconst,
rng, reduce)` (codegen/uopgraph.py lines 120-130): refuses unless the
matched RANGE is one of the reduce's ranges, the multiplier constant is
negative, and the loop starts at 0; otherwise builds
`min(loop_end, max((idx-compval-mval)//mval + (loop_end-loop_start),
loop_start))`, casts it to the multiplier's dtype, multiplies, and returns
a REDUCE over the remaining ranges with the matched range removed. -/
def loop_collapse (loop_start loop_end compval idx mval multconst rng reduce : UOp) :
    Option UOp :=
  if rng ∉ reduce.src then Option.none
  else
    match mval.arg, loop_start.arg with
    | .int mv, .int ls =>
      if 0 ≤ mv ∨ ls ≠ 0 then Option.none
      else
        some (UOp.mk .REDUCE reduce.dtype
          (umul (ucast multconst.dtype
              (umin loop_end
                (umax (uadd (uidiv (usub (usub idx compval) mval) mval)
                  (usub loop_end loop_start)) loop_start))) multconst
            :: ((reduce.src.drop 1).filter (fun x => x ≠ rng)))
          reduce.arg)
    | _, _ => Option.none

/-- Environment update: the loop variable `x` bound to `r`. -/
def updEnv (env : UOp → Int) (x : UOp) (r : Int) : UOp → Int :=
  fun u => if u = x then r else env u

/-- The value of a SUM `REDUCE` with one `RANGE`: the sum of the body over
the loop variable ranging over `[lo, hi)` (spec §4.5/§4.6: a RANGE is a
sequential loop and a SUM reduce accumulates the body with ADD). -/
def evalReduceSum (env : UOp → Int) (body rng : UOp) (lo hi : Int) : Int :=
  ((List.range (hi - lo).toNat).map
    (fun k : Nat => uveal (updEnv env rng (lo + k)) body)).sum

/-- The reduce `RANGE(0, N)` with loop id `i` used by the C3 statements. -/
def rngN (i : Int) (N : Nat) : UOp :=
  .mk .RANGE .pyint [constI 0, constI (N : Int)] (.loop i true)

/-- The matched reduce body `((idx + m·rng).lt(c)).where(mu, 0)`. -/
def arangeBody (idx : UOp) (m : Int) (rng : UOp) (c mu : Int) : UOp :=
  uwhere (ult (uadd idx (umul (constI m) rng)) (constI c)) (constI mu) (constI 0)

/-- The UOp that `loop_collapse` builds for `loop_start = 0`,
`loop_end = N`: the clamped closed form, cast to the multiplier's dtype
and multiplied by it. -/
def collapsedBody (idx : UOp) (m : Int) (N : Nat) (c mu : Int) : UOp :=
  umul (ucast (constI mu).dtype
    (umin (constI (N : Int))
      (umax (uadd (uidiv (usub (usub idx (constI c)) (constI m)) (constI m))
        (usub (constI (N : Int)) (constI 0))) (constI 0)))) (constI mu)

theorem collapse_bridge (m q r : Int) (hm : m < 0) (hr : 0 ≤ r) :
    (m * r < q) ↔ (-(Int.tdiv (-q - m) m) ≤ r) := by
  set k : Int := -m with hk
  have hkpos : 0 < k := by omega
  have hmk : m = -k := by omega
  have hdiv : -(Int.tdiv (-q - m) m) = Int.tdiv (k - q) k := by
    rw [hmk]
    rw [Int.tdiv_neg]
    have : -q - -k = k - q := by ring
    rw [this]
    omega
  rw [hdiv]
  have hmr : m * r = -(k * r) := by rw [hmk]; ring
  rw [hmr]
  by_cases hq : q ≤ 0
  · -- k - q ≥ k > 0: truncated division agrees with Euclidean division
    have hn : 0 ≤ k - q := by omega
    rw [Int.tdiv_eq_ediv hn (le_of_lt hkpos)]
    have hmod := Int.ediv_add_emod (k - q) k
    have hmod0 : 0 ≤ (k - q) % k := Int.emod_nonneg _ (by omega)
    have hmodlt : (k - q) % k < k := Int.emod_lt_of_pos _ hkpos
    constructor
    · intro hlt
      by_contra hcon
      push_neg at hcon
      have hre : r ≤ (k - q) / k - 1 := by omega
      have h1 : k * r ≤ k * ((k - q) / k - 1) :=
        Int.mul_le_mul_of_nonneg_left hre (by omega)
      have h2 : k * ((k - q) / k - 1) = k * ((k - q) / k) - k := by ring
      omega
    · intro hle
      have h1 : k * ((k - q) / k) ≤ k * r :=
        Int.mul_le_mul_of_nonneg_left hle (by omega)
      omega
  · -- q ≥ 1: both sides hold
    push_neg at hq
    have hkr : 0 ≤ k * r := mul_nonneg (by omega) hr
    constructor
    · intro _
      have : Int.tdiv (k - q) k ≤ 0 := by
        by_cases hn : 0 ≤ k - q
        · rw [Int.tdiv_eq_ediv hn (le_of_lt hkpos)]
          rw [Int.ediv_eq_zero_of_lt hn (by omega)]
        · push_neg at hn
          have h1 : k - q = -(q - k) := by ring
          rw [h1, Int.neg_tdiv]
          have h2 : 0 ≤ Int.tdiv (q - k) k := Int.tdiv_nonneg (by omega) (by omega)
          omega
      omega
    · intro _
      omega

theorem collapse_sum (m c idxv mu : Int) (hm : m < 0) :
    ∀ N : Nat,
    ((List.range N).map (fun k : Nat => if idxv + m * (k : Int) < c then mu else 0)).sum
      = min (N : Int) (max (Int.tdiv (idxv - c - m) m + N) 0) * mu := by
  intro N
  induction N with
  | zero =>
    have h : min (0 : Int) (max (Int.tdiv (idxv - c - m) m + 0) 0) = 0 := by omega
    simp [h]
  | succ n ih =>
    rw [List.range_succ, List.map_append, List.sum_append, ih]
    have hbr := collapse_bridge m (c - idxv) n hm (by positivity)
    have harg : -(c - idxv) - m = idxv - c - m := by ring
    rw [harg] at hbr
    have hcond : (idxv + m * (n : Int) < c) ↔ (-(Int.tdiv (idxv - c - m) m) ≤ n) := by
      constructor
      · intro h; exact hbr.mp (by omega)
      · intro h; have := hbr.mpr h; omega
    set C : Int := Int.tdiv (idxv - c - m) m with hC
    by_cases hT : -C ≤ (n : Int)
    · have hmm : min ((n : Int) + 1) (max (C + ((n : Int) + 1)) 0)
          = min (n : Int) (max (C + n) 0) + 1 := by omega
      push_cast
      rw [hmm]
      simp only [List.map_cons, List.map_nil, List.sum_cons, List.sum_nil]
      rw [if_pos (hcond.mpr hT)]
      ring
    · have hmm : min ((n : Int) + 1) (max (C + ((n : Int) + 1)) 0)
          = min (n : Int) (max (C + n) 0) := by omega
      push_cast
      rw [hmm]
      simp only [List.map_cons, List.map_nil, List.sum_cons, List.sum_nil]
      rw [if_neg (fun hcc => hT (hcond.mp hcc))]
      ring

/-- C3 counterexample: a SUM reduce whose body is exactly the claimed
shape — `(idx + k·loop).lt(c).where(mult, 0)` with constant multiplier
`k = 1` — is NOT replaced: `loop_collapse` refuses whenever the
multiplier constant is nonnegative (`mval.arg >= 0` guard, line 122), so
no closed form is produced at this input. -/
theorem c3_counterexample :
    loop_collapse (constI 0) (constI 10) (constI 5) (constI 0) (constI 1) (constI 1)
      (rngN 0 10)
      (UOp.mk .REDUCE .int32 [arangeBody (constI 0) 1 (rngN 0 10) 5 1, rngN 0 10]
        (.red .SUM))
      = Option.none := by decide

/-- C3 (amended): for a SUM reduce over `RANGE(0, N)` whose body is
`((idx + m·rng).lt(c)).where(mu, 0)` with NEGATIVE constant multiplier
`m` (the rule refuses nonnegative multipliers and nonzero loop starts),
`loop_collapse` replaces the reduce by
`min(loop_end, max((idx-c-m)//m + (loop_end-loop_start), loop_start))`
cast and multiplied by `mu`, with the matched RANGE removed — here the
only range, so no reduction loop remains — and the closed form is exact:
it evaluates to the sum of the body over the loop.  `idx` must not
depend on the loop variable (`hfree`). -/
theorem c3_loop_collapse_amended
    (env : UOp → Int) (dt : DTy) (i : Int) (N : Nat) (m c mu : Int) (idx : UOp)
    (hm : m < 0)
    (hfree : ∀ r : Int, uveal (updEnv env (rngN i N) r) idx = uveal env idx) :
    loop_collapse (constI 0) (constI (N : Int)) (constI c) idx (constI m) (constI mu)
        (rngN i N)
        (UOp.mk .REDUCE dt [arangeBody idx m (rngN i N) c mu, rngN i N] (.red .SUM))
      = some (UOp.mk .REDUCE dt [collapsedBody idx m N c mu] (.red .SUM))
    ∧ (∀ u ∈ (UOp.mk .REDUCE dt [collapsedBody idx m N c mu] (.red .SUM)).src,
        u.op ≠ UOpKind.RANGE)
    ∧ uveal env (collapsedBody idx m N c mu)
        = evalReduceSum env (arangeBody idx m (rngN i N) c mu) (rngN i N) 0 N := by
  refine ⟨?_, ?_, ?_⟩
  · unfold loop_collapse
    rw [if_neg (show ¬ (rngN i N ∉
        (UOp.mk .REDUCE dt [arangeBody idx m (rngN i N) c mu, rngN i N]
          (.red .SUM)).src) by simp [UOp.src])]
    show (if 0 ≤ m ∨ (0 : Int) ≠ 0 then Option.none else _) = _
    rw [if_neg (show ¬ (0 ≤ m ∨ (0 : Int) ≠ 0) by omega)]
    simp only [UOp.src, UOp.dtype, UOp.arg, Option.some.injEq, List.drop_succ_cons,
      List.drop_zero]
    rw [show List.filter (fun x => x ≠ rngN i N) [rngN i N] = [] by simp]
    rfl
  · intro u hu
    simp only [UOp.src, List.mem_singleton] at hu
    subst hu
    rw [collapsedBody]
    intro hcon
    exact absurd hcon (by simp [umul, UOp.op])
  · have hterm : ∀ k : Nat,
        uveal (updEnv env (rngN i N) ((0 : Int) + k)) (arangeBody idx m (rngN i N) c mu)
          = if uveal env idx + m * (k : Int) < c then mu else 0 := by
      intro k
      have hrng : uveal (updEnv env (rngN i N) ((0 : Int) + k)) (rngN i N)
          = (0 : Int) + k := by
        show updEnv env (rngN i N) ((0 : Int) + k) (rngN i N) = (0 : Int) + k
        simp [updEnv]
      show (if (if uveal (updEnv env (rngN i N) ((0 : Int) + k)) idx
          + m * uveal (updEnv env (rngN i N) ((0 : Int) + k)) (rngN i N) < c
          then (1 : Int) else 0) ≠ 0 then mu else 0)
        = if uveal env idx + m * (k : Int) < c then mu else 0
      rw [hrng, hfree ((0 : Int) + k)]
      simp only [zero_add]
      by_cases hcc : uveal env idx + m * (k : Int) < c
      · simp [hcc]
      · simp [hcc]
    unfold evalReduceSum
    have htn : (((N : Int)) - 0).toNat = N := by omega
    rw [htn]
    rw [List.map_congr_left (fun k _ => hterm k)]
    rw [collapse_sum m c (uveal env idx) mu hm N]
    have hcb : uveal env (collapsedBody idx m N c mu)
        = min ((N : Int)) (max (Int.tdiv (uveal env idx - c - m) m + ((N : Int) - 0)) 0)
            * mu := by
      simp only [collapsedBody, uveal_umul, uveal_ucast, uveal_umin, uveal_umax,
        uveal_uadd, uveal_uidiv, uveal_usub, uveal_constI]
    rw [hcb, sub_zero]

/-- The collapsed instance used by the C3 witness: `N = 4`, `m = -1`,
`c = 2`, `mu = 2`, `idx = 3`: the loop counts `r ∈ {2, 3}` (where
`3 - r < 2`), so the sum is `2·2 = 4` and the closed form gives
`min(4, max(-2 + 4, 0))·2 = 4`. -/
def envZ : UOp → Int := fun _ => 0

/-- Witness for C3 (amended): the rewrite fires at the concrete instance
and the closed form evaluates to the loop sum, 4. -/
theorem c3_witness :
    loop_collapse (constI 0) (constI 4) (constI 2) (constI 3) (constI (-1)) (constI 2)
        (rngN 0 4)
        (UOp.mk .REDUCE .int32 [arangeBody (constI 3) (-1) (rngN 0 4) 2 2, rngN 0 4]
          (.red .SUM))
      = some (UOp.mk .REDUCE .int32 [collapsedBody (constI 3) (-1) 4 2 2] (.red .SUM))
    ∧ uveal envZ (collapsedBody (constI 3) (-1) 4 2 2)
        = evalReduceSum envZ (arangeBody (constI 3) (-1) (rngN 0 4) 2 2) (rngN 0 4) 0 4
    ∧ evalReduceSum envZ (arangeBody (constI 3) (-1) (rngN 0 4) 2 2) (rngN 0 4) 0 4 = 4 := by
  have h := c3_loop_collapse_amended envZ .int32 0 4 (-1) 2 2 (constI 3)
    (by decide) (fun r => rfl)
  exact ⟨h.1, h.2.2, by decide⟩

/-! ## C4: the verification step of `UOpGraph.linearize`
(codegen/uopgraph.py lines 556-573)

After rewriting and toposorting, `linearize` runs sanity checks:
`type_verify(self.uops)`, `assert self._uops[-1].op is UOps.SINK`,
`assert len(bad_ops) == 0` for the EXPAND/CONTRACT/REDUCE ops left in the
list, and a repeated-stores assert; an `AssertionError` is re-raised
after printing the offending graph, so no uop list is produced.  On
success the SINK is stripped and the list is kept. -/

/-- Modelled from the spec: `type_verify` lives in `codegen/uops.py`,
which is not under src/.  The spec's invariant is "`dtype` matches `op`'s
signature" (§3, §4.8 step 4).  Modelled signature rules: a CONST's value
kind agrees with its dtype; comparisons are bool-typed; RANGE is
integer-typed; STORE and SINK carry no dtype. -/
def typeOkB : UOp → Bool
  | .mk .CONST .bool _ (.boolean _) => true
  | .mk .CONST .int32 _ (.int _) => true
  | .mk .CONST .pyint _ (.int _) => true
  | .mk .CONST .float32 _ (.flt _) => true
  | .mk .CONST .float16 _ (.flt _) => true
  | .mk .CONST _ _ _ => false
  | .mk .ALU dt _ (.alu .CMPLT) => dt == .bool
  | .mk .ALU dt _ (.alu .CMPGE) => dt == .bool
  | .mk .RANGE dt _ _ => dt == .int32 || dt == .pyint
  | .mk .STORE dt _ _ => dt == .void
  | .mk .SINK dt _ _ => dt == .void
  | _ => true

/-- Modelled from the spec: `type_verify` checks every UOp in the list
and raises on the first offender; `none` means the list passed. -/
def type_verify (uops : List UOp) : Option UOp := uops.find? (fun u => ¬ typeOkB u)

/-- The forbidden post-rewrite ops (codegen/uopgraph.py line 558). -/
def isBadOp (k : UOpKind) : Bool :=
  k == .EXPAND || k == .CONTRACT || k == .REDUCE

/-- `bad_ops` (line 558): the deduplicated op kinds of forbidden UOps
left in the list. -/
def bad_ops (uops : List UOp) : List UOpKind :=
  ((uops.map UOp.op).filter isBadOp).dedup

/-- The keys compared by the repeated-stores assert (line 565):
`x.src[0:2] + x.src[3:]` of every STORE not into a DEFINE_LOCAL. -/
def storeKeys (uops : List UOp) : List (List UOp) :=
  (uops.filter (fun x => x.op == .STORE &&
      (match x.src.head? with
       | some b => !(b.op == .DEFINE_LOCAL)
       | Option.none => true))).map
    (fun x => x.src.take 2 ++ x.src.drop 3)

/-- The repeated-stores assert passes iff the keys are pairwise distinct. -/
def storesOk (uops : List UOp) : Bool :=
  (storeKeys uops).length == (storeKeys uops).dedup.length

/-- Verification failure, carrying the offending data exactly as the
assertion messages do. -/
inductive VerifyErr where
  | typeError (u : UOp)
  | noSinkEnd (u : Option UOp)
  | badUOps (ops : List UOpKind)
  | repeatedStores
  deriving DecidableEq

/-- The checks at the end of `UOpGraph.linearize` (lines 556-573) in
source order; an error models the raised `AssertionError`, and only a
fully verified list is returned (with the SINK stripped, line 573). -/
def linearize_finish (uops : List UOp) : Except VerifyErr (List UOp) :=
  match type_verify uops with
  | some u => Except.error (.typeError u)
  | Option.none =>
    if ¬ ((uops.getLast?).map UOp.op = some .SINK) then
      Except.error (.noSinkEnd uops.getLast?)
    else if bad_ops uops ≠ [] then Except.error (.badUOps (bad_ops uops))
    else if ¬ (storesOk uops = true) then Except.error .repeatedStores
    else Except.ok uops.dropLast

/-- C4: the verification after rewriting.  A list is returned only if
every UOp's dtype is legal for its op, the list ends with the SINK, and
no EXPAND/CONTRACT/REDUCE remains (the returned list is the input minus
the terminal SINK); any violation of these produces a fatal error and no
list; a type error names an offending UOp of the list, and a bad-ops
error names exactly the forbidden op kinds present. -/
theorem c4_linearize_verifies (uops : List UOp) :
    (∀ l, linearize_finish uops = Except.ok l →
      (∀ u ∈ uops, typeOkB u = true)
      ∧ (uops.getLast?).map UOp.op = some .SINK
      ∧ (∀ u ∈ uops, isBadOp u.op = false)
      ∧ l = uops.dropLast)
    ∧ ((¬ (∀ u ∈ uops, typeOkB u = true)
        ∨ (uops.getLast?).map UOp.op ≠ some .SINK
        ∨ ¬ (∀ u ∈ uops, isBadOp u.op = false)) →
      ∃ e, linearize_finish uops = Except.error e)
    ∧ (∀ u, linearize_finish uops = Except.error (.typeError u) →
        u ∈ uops ∧ typeOkB u = false)
    ∧ (∀ ks, linearize_finish uops = Except.error (.badUOps ks) →
        ks ≠ [] ∧ ∀ k ∈ ks, isBadOp k = true ∧ ∃ u ∈ uops, u.op = k) := by
  refine ⟨?_, ?_, ?_, ?_⟩
  · intro l hok
    unfold linearize_finish at hok
    cases htv : type_verify uops with
    | some u => rw [htv] at hok; exact absurd hok (by simp)
    | none =>
      rw [htv] at hok
      by_cases hsink : (uops.getLast?).map UOp.op = some .SINK
      · rw [if_neg (by simpa using hsink)] at hok
        by_cases hbad : bad_ops uops = []
        · rw [if_neg (by simpa using hbad)] at hok
          by_cases hst : storesOk uops = true
          · rw [if_neg (by simpa using hst)] at hok
            refine ⟨?_, hsink, ?_, by simpa using hok.symm⟩
            · intro u hu
              have := List.find?_eq_none.mp htv u hu
              simpa using this
            · intro u hu
              by_contra hcon
              have hmem : u.op ∈ (uops.map UOp.op).filter isBadOp :=
                List.mem_filter.mpr ⟨List.mem_map_of_mem UOp.op hu, by simpa using hcon⟩
              have : u.op ∈ bad_ops uops := List.mem_dedup.mpr hmem
              rw [hbad] at this
              simp at this
          · rw [if_pos (by simpa using hst)] at hok
            exact absurd hok (by simp)
        · rw [if_pos (by simpa using hbad)] at hok
          exact absurd hok (by simp)
      · rw [if_pos (by simpa using hsink)] at hok
        exact absurd hok (by simp)
  · intro hviol
    unfold linearize_finish
    cases htv : type_verify uops with
    | some u => exact ⟨.typeError u, rfl⟩
    | none =>
      by_cases hsink : (uops.getLast?).map UOp.op = some .SINK
      · rw [if_neg (by simpa using hsink)]
        have hall : ∀ u ∈ uops, typeOkB u = true := by
          intro u hu
          simpa using List.find?_eq_none.mp htv u hu
        rcases hviol with h | h | h
        · exact absurd hall h
        · exact absurd hsink h
        · have hbad : bad_ops uops ≠ [] := by
            intro hnil
            apply h
            intro u hu
            by_contra hcon
            have hmem : u.op ∈ (uops.map UOp.op).filter isBadOp :=
              List.mem_filter.mpr ⟨List.mem_map_of_mem UOp.op hu, by simpa using hcon⟩
            have : u.op ∈ bad_ops uops := List.mem_dedup.mpr hmem
            rw [hnil] at this
            simp at this
          rw [if_pos (by simpa using hbad)]
          exact ⟨.badUOps (bad_ops uops), rfl⟩
      · rw [if_pos (by simpa using hsink)]
        exact ⟨.noSinkEnd uops.getLast?, rfl⟩
  · intro u herr
    unfold linearize_finish at herr
    cases htv : type_verify uops with
    | some w =>
      rw [htv] at herr
      simp only [Except.error.injEq, VerifyErr.typeError.injEq] at herr
      subst herr
      refine ⟨List.mem_of_find?_eq_some htv, ?_⟩
      have := List.find?_some htv
      simpa using this
    | none =>
      rw [htv] at herr
      by_cases hsink : (uops.getLast?).map UOp.op = some .SINK
      · rw [if_neg (by simpa using hsink)] at herr
        by_cases hbad : bad_ops uops = []
        · rw [if_neg (by simpa using hbad)] at herr
          by_cases hst : storesOk uops = true
          · rw [if_neg (by simpa using hst)] at herr
            exact absurd herr (by simp)
          · rw [if_pos (by simpa using hst)] at herr
            exact absurd herr (by simp)
        · rw [if_pos (by simpa using hbad)] at herr
          exact absurd herr (by simp)
      · rw [if_pos (by simpa using hsink)] at herr
        exact absurd herr (by simp)
  · intro ks herr
    unfold linearize_finish at herr
    cases htv : type_verify uops with
    | some w => rw [htv] at herr; exact absurd herr (by simp)
    | none =>
      rw [htv] at herr
      by_cases hsink : (uops.getLast?).map UOp.op = some .SINK
      · rw [if_neg (by simpa using hsink)] at herr
        by_cases hbad : bad_ops uops = []
        · rw [if_neg (by simpa using hbad)] at herr
          by_cases hst : storesOk uops = true
          · rw [if_neg (by simpa using hst)] at herr
            exact absurd herr (by simp)
          · rw [if_pos (by simpa using hst)] at herr
            exact absurd herr (by simp)
        · rw [if_pos (by simpa using hbad)] at herr
          simp only [Except.error.injEq, VerifyErr.badUOps.injEq] at herr
          subst herr
          refine ⟨hbad, ?_⟩
          intro k hk
          have hmem : k ∈ (uops.map UOp.op).filter isBadOp := List.mem_dedup.mp hk
          rcases List.mem_filter.mp hmem with ⟨hmap, hbadk⟩
          rcases List.mem_map.mp hmap with ⟨u, hu, hop⟩
          exact ⟨by simpa using hbadk, u, hu, hop⟩
      · rw [if_pos (by simpa using hsink)] at herr
        exact absurd herr (by simp)

/-- A well-formed two-element uop list for the C4 witness: one STORE and
the terminal SINK. -/
def uopsW : List UOp :=
  [UOp.mk .DEFINE_GLOBAL .pyint [] (.int 0),
   UOp.mk .STORE .void [UOp.mk .DEFINE_GLOBAL .pyint [] (.int 0), constI 0, constI 7] .none,
   UOp.mk .SINK .void [UOp.mk .STORE .void
     [UOp.mk .DEFINE_GLOBAL .pyint [] (.int 0), constI 0, constI 7] .none] .none]

/-- Witness for C4: the concrete list `uopsW` passes verification, so
every dtype is legal, the last op is the SINK, nothing forbidden remains,
and the returned list is `uopsW` without the SINK; and a list with a
leftover REDUCE errors. -/
theorem c4_witness :
    ((∀ u ∈ uopsW, typeOkB u = true)
      ∧ (uopsW.getLast?).map UOp.op = some .SINK
      ∧ (∀ u ∈ uopsW, isBadOp u.op = false)
      ∧ uopsW.dropLast = uopsW.dropLast)
    ∧ (∃ e, linearize_finish [UOp.mk .REDUCE .pyint [constI 0] (.red .SUM),
        UOp.mk .SINK .void [] .none] = Except.error e) :=
  ⟨(c4_linearize_verifies uopsW).1 uopsW.dropLast (by rfl),
   (c4_linearize_verifies [UOp.mk .REDUCE .pyint [constI 0] (.red .SUM),
      UOp.mk .SINK .void [] .none]).2.1 (Or.inr (Or.inr (by decide)))⟩

/-! ## C5: `LazyBuffer.realize` (accel/lazy/ops_lazy.py lines 57-65) -/

/-- The mutable state of a lazy buffer that `realize` touches: the
`realized` back-reference (None until a successful run) and the op graph
(deleted by `del self.op` after a successful run).  The realised-buffer
and op-graph types are abstract. -/
structure LazyBufSt (β ω : Type) where
  realized : Option β
  op : Option ω
  deriving DecidableEq

/-- `LazyBuffer.realize` (lines 57-65) as a state transformer.  `run`
stands for the `_realize(self)` call: an exception, or the produced
buffer with its real sources.  Python evaluates the right-hand side of
`self.realized, real_srcs = _realize(self)` before assigning; if it
raises, neither the assignment nor `del self.op` executes, the exception
propagates, and the buffer is untouched. -/
def realize {β ω : Type} (b : LazyBufSt β ω) (run : Except String (β × List β)) :
    LazyBufSt β ω × Except String β :=
  match b.realized with
  | some r => (b, Except.ok r)
  | Option.none =>
    match run with
    | Except.error e => (b, Except.error e)
    | Except.ok (r, _) => ({ realized := some r, op := Option.none }, Except.ok r)

/-- C5: realisation is atomic on failure: if an unrealised buffer's
`_realize` raises, `realize` leaves the buffer exactly as it was — the
`realized` field stays unset and the op graph is retained — and the
error propagates instead of a buffer. -/
theorem c5_realize_atomic {β ω : Type} (b : LazyBufSt β ω) (e : String)
    (hb : b.realized = Option.none) :
    realize b (Except.error e) = (b, Except.error e)
    ∧ (realize b (Except.error e)).1.realized = Option.none
    ∧ (realize b (Except.error e)).1.op = b.op := by
  unfold realize
  rw [hb]
  exact ⟨rfl, hb, rfl⟩

/-- Witness for C5: a concrete unrealised buffer (op graph `some 42`)
passed a failing run is returned unchanged with the error. -/
theorem c5_witness :
    realize (β := Nat) (ω := Nat) ⟨Option.none, some 42⟩ (Except.error "boom")
      = (⟨Option.none, some 42⟩, Except.error "boom") :=
  (c5_realize_atomic ⟨Option.none, some 42⟩ "boom" rfl).1

/-! ## C6: `LazyBuffer.movement_op` (accel/lazy/ops_lazy.py lines 80-98) -/

/-- Movement-op kinds (`tinygrad.ops.MovementOps`). -/
inductive MovKind where
  | RESHAPE | PERMUTE | EXPAND | PAD | SHRINK | STRIDE
  deriving DecidableEq

/-- The `optype` classes of `accel/lazy/ops_lazy.py`. -/
inductive OpClass where
  | LoadOps | BinaryOps | ReduceOps | MovementOps | ProcessingOps
  deriving DecidableEq

/-- Op names on lazy nodes: a movement kind or some other op. -/
inductive OpName where
  | mov (m : MovKind)
  | other
  deriving DecidableEq

mutual

/-- `LazyOp(op, src, arg)` (ops_lazy.py line 20), parametric over the
tracker type `σ`, the realised-buffer type `ρ` and the movement-arg type
`α`. -/
inductive LazyOpT (σ ρ α : Type) where
  | mk (op : OpName) (src : List (LazySrc σ ρ α)) (arg : α)

/-- A lazy-op source: a buffer or a nested op. -/
inductive LazySrc (σ ρ α : Type) where
  | buf (b : LazyBufT σ ρ α)
  | op (o : LazyOpT σ ρ α)

/-- `LazyBuffer` (ops_lazy.py line 48): tracker, shape (set from the
tracker), optype, op and the `realized` back-reference. -/
inductive LazyBufT (σ ρ α : Type) where
  | mk (st : σ) (shape : List Int) (optype : OpClass) (op : LazyOpT σ ρ α)
      (realized : Option ρ)

end

/-- The stored `shape` attribute of a lazy buffer. -/
def bufShape {σ ρ α : Type} : LazyBufT σ ρ α → List Int
  | .mk _ sh _ _ _ => sh

/-- The `optype` of a lazy buffer. -/
def bufOptype {σ ρ α : Type} : LazyBufT σ ρ α → OpClass
  | .mk _ _ t _ _ => t

/-- `get_root(x)` (ops_lazy.py line 25): follow `src[0]` down to the
first `LazyBuffer`; `none` models the `IndexError` on an op without
sources. -/
def get_root {σ ρ α : Type} : LazySrc σ ρ α → Option (LazyBufT σ ρ α)
  | .buf b => some b
  | .op (.mk _ [] _) => Option.none
  | .op (.mk _ (s :: _) _) => get_root s

/-- The ShapeTracker interface consumed by `movement_op`.  The tracker
class itself (`tinygrad/shapetracker.py`) is not under src/;
`movement_op` only applies a movement to a copy of the tracker and reads
`contiguous` and `shape`, so the embedding is parametric over any tracker
implementation. -/
structure STOps (σ α : Type) where
  mov : σ → MovKind → α → σ
  contig : σ → Bool
  shape : σ → List Int

/-- `LazyBuffer.movement_op` (ops_lazy.py lines 80-98) for a source whose
optype is not `BinaryOps` (the SHUFFLE_MOVEMENT_OPS branch, line 82,
applies only to BinaryOps sources).  `ret` carries a copy of `x.st` with
the new movement applied and its shape (lines 90-91); with
MERGE_MOVEMENT_OPS on (line 14) the new op's source is `x.op` when `x`
is an unrealised movement node, else `x` itself.  With
REMOVE_MOVEMENT_NOPS on (line 16), when `x` is an unrealised movement
node and the moved tracker is contiguous with shape equal to the root
buffer's shape, the root is returned (lines 93-96). -/
def movement_op {σ ρ α : Type} (ops : STOps σ α) (x : LazyBufT σ ρ α)
    (mop : MovKind) (arg : α) : LazyBufT σ ρ α :=
  match x with
  | .mk xst _ xoptype xop xrealized =>
    let newst := ops.mov xst mop arg
    let srcNode : LazySrc σ ρ α :=
      if xoptype == OpClass.MovementOps && xrealized.isNone then .op xop else .buf x
    let ret : LazyBufT σ ρ α :=
      .mk newst (ops.shape newst) OpClass.MovementOps (.mk (.mov mop) [srcNode] arg)
        Option.none
    if xoptype == OpClass.MovementOps && xrealized.isNone && ops.contig newst then
      match get_root (.op xop) with
      | some root => if ops.shape newst = bufShape root then root else ret
      | Option.none => ret
    else ret

/-- C6: movement that becomes identity.  For an unrealised movement-op
node `x`, if applying a further movement op yields a tracker that is
contiguous and whose shape equals the shape of the chain's root buffer,
`movement_op` returns that root buffer itself, not a new node — for
every ShapeTracker implementation. -/
theorem c6_movement_identity {σ ρ α : Type} (ops : STOps σ α)
    (st : σ) (sh : List Int) (xop : LazyOpT σ ρ α) (mop : MovKind) (arg : α)
    (root : LazyBufT σ ρ α)
    (hroot : get_root (.op xop) = some root)
    (hcontig : ops.contig (ops.mov st mop arg) = true)
    (hshape : ops.shape (ops.mov st mop arg) = bufShape root) :
    movement_op ops (.mk st sh OpClass.MovementOps xop Option.none) mop arg = root := by
  simp only [movement_op, Option.isNone_none, Bool.and_true, beq_self_eq_true,
    hcontig, hroot, hshape, eq_self_iff_true, if_true]

/-- Concrete toy instances for the C6 witness: trivial tracker. -/
def stOpsW : STOps Unit Unit :=
  { mov := fun _ _ _ => (), contig := fun _ => true, shape := fun _ => [] }

/-- The witness root buffer. -/
def rootW : LazyBufT Unit Unit Unit :=
  .mk () [] OpClass.LoadOps (.mk .other [] ()) Option.none

/-- Witness for C6: a movement applied to an unrealised movement node
whose moved tracker is contiguous with the root's shape returns the root
itself. -/
theorem c6_witness :
    movement_op stOpsW
        (.mk () [] OpClass.MovementOps (.mk (.mov .RESHAPE) [.buf rootW] ()) Option.none)
        .PERMUTE ()
      = rootW :=
  c6_movement_identity stOpsW () [] (.mk (.mov .RESHAPE) [.buf rootW] ()) .PERMUTE ()
    rootW rfl rfl rfl

/-! ## C7: DEFINE_ACC placement in `UOpGraph.linearize`
(codegen/uopgraph.py lines 536-552) -/

/-- One emission step of the linearize toposort loop (lines 542-545): a
popped DEFINE_ACC is inserted at the minimum current-list index of its
RANGE sources (`idx = min([self._uops.index(l) for l in x.src if l.op is
UOps.RANGE]); self._uops.insert(idx, x)`); every other UOp is appended.
The empty-minimum case (`min([])` raises in Python) keeps the appended
form and is excluded by the theorems' hypotheses. -/
def emit_step (uops : List UOp) (x : UOp) : List UOp :=
  if x.op == .DEFINE_ACC then
    match (x.src.filter (fun l => l.op == .RANGE)).map (fun l => uops.indexOf l) with
    | [] => uops ++ [x]
    | i :: is =>
      let m := is.foldl min i
      uops.take m ++ x :: uops.drop m
  else uops ++ [x]

/-- The range UOp used in the C7 statements. -/
def rngC7 : UOp := .mk .RANGE .pyint [constI 0, constI 8] (.loop 0 true)

/-- A DEFINE_ACC whose sources are its initial CONST and `rngC7`. -/
def accC7 : UOp :=
  .mk .DEFINE_ACC .float32 [.mk .CONST .float32 [] (.flt (.fin 0)), rngC7] (.accnum 0)

/-- C7 counterexample: emitting the DEFINE_ACC `accC7` into the list
`[rngC7]` does NOT place it immediately after its (single, hence latest)
RANGE dependency — that would be `[rngC7, accC7]` — it places it
immediately BEFORE it. -/
theorem c7_counterexample :
    emit_step [rngC7] accC7 ≠ [rngC7, accC7]
    ∧ emit_step [rngC7] accC7 = [accC7, rngC7] := by decide

theorem foldl_min_mem : ∀ (is : List Nat) (i : Nat), is.foldl min i ∈ i :: is := by
  intro is
  induction is with
  | nil => intro i; simp [List.foldl]
  | cons a as ih =>
    intro i
    rw [List.foldl_cons]
    have h := ih (min i a)
    rcases List.mem_cons.mp h with h1 | h1
    · rw [h1]
      rcases Nat.le_total i a with hle | hle
      · rw [Nat.min_eq_left hle]; simp
      · rw [Nat.min_eq_right hle]; simp
    · exact List.mem_cons_of_mem _ (List.mem_cons_of_mem _ h1)

theorem foldl_min_le : ∀ (is : List Nat) (i : Nat) (j : Nat),
    j ∈ i :: is → is.foldl min i ≤ j := by
  intro is
  induction is with
  | nil =>
    intro i j hj
    simp at hj
    subst hj
    simp [List.foldl]
  | cons a as ih =>
    intro i j hj
    rw [List.foldl_cons]
    rcases List.mem_cons.mp hj with h1 | h1
    · subst h1
      have h2 := ih (min j a) (min j a) (by simp)
      omega
    · rcases List.mem_cons.mp h1 with h2 | h2
      · subst h2
        have h3 := ih (min i j) (min i j) (by simp)
        omega
      · exact ih (min i a) j (List.mem_cons_of_mem _ h2)

/-- C7 (amended): when the linearize loop emits a DEFINE_ACC that has at
least one RANGE source and all its RANGE sources are already in the list,
it inserts the DEFINE_ACC at the minimum of those sources' indices — so
the DEFINE_ACC lands immediately BEFORE the earliest-emitted of its
RANGE dependencies (and hence before all of them), not after the latest:
position `m` holds the DEFINE_ACC, position `m+1` holds that earliest
RANGE, and every RANGE dependency has index ≥ m in the old list. -/
theorem c7_define_acc_before_earliest_range (uops : List UOp) (x : UOp)
    (hacc : x.op = .DEFINE_ACC)
    (hr : ∃ l ∈ x.src, l.op = .RANGE)
    (hmem : ∀ l ∈ x.src, l.op = .RANGE → l ∈ uops) :
    ∃ m r₀, emit_step uops x = uops.take m ++ x :: uops.drop m
      ∧ r₀ ∈ x.src ∧ r₀.op = .RANGE ∧ uops[m]? = some r₀
      ∧ (emit_step uops x)[m]? = some x
      ∧ (emit_step uops x)[m + 1]? = some r₀
      ∧ (∀ l ∈ x.src, l.op = .RANGE → m ≤ uops.indexOf l) := by
  have hrs : x.src.filter (fun l => l.op == .RANGE) ≠ [] := by
    rcases hr with ⟨l, hl, hlop⟩
    intro hnil
    have : l ∈ x.src.filter (fun l => l.op == .RANGE) :=
      List.mem_filter.mpr ⟨hl, by simp [hlop]⟩
    rw [hnil] at this
    simp at this
  cases hflt : x.src.filter (fun l => l.op == .RANGE) with
  | nil => exact absurd hflt hrs
  | cons a as =>
    have hstep : emit_step uops x
        = uops.take ((as.map (fun l => uops.indexOf l)).foldl min (uops.indexOf a))
          ++ x :: uops.drop ((as.map (fun l => uops.indexOf l)).foldl min (uops.indexOf a)) := by
      unfold emit_step
      rw [if_pos (by simp [hacc])]
      rw [hflt]
      simp only [List.map_cons]
    set m := (as.map (fun l => uops.indexOf l)).foldl min (uops.indexOf a) with hm
    have hmmem : m ∈ (uops.indexOf a) :: as.map (fun l => uops.indexOf l) :=
      foldl_min_mem _ _
    have hrsmem : ∀ l, l ∈ a :: as → l ∈ x.src ∧ l.op = .RANGE := by
      intro l hl
      rw [← hflt] at hl
      rcases List.mem_filter.mp hl with ⟨h1, h2⟩
      exact ⟨h1, by simpa using h2⟩
    obtain ⟨r₀, hr₀mem, hr₀idx⟩ : ∃ r₀, r₀ ∈ a :: as ∧ uops.indexOf r₀ = m := by
      rcases List.mem_cons.mp hmmem with h1 | h1
      · exact ⟨a, by simp, h1.symm⟩
      · rcases List.mem_map.mp h1 with ⟨l, hl, hlidx⟩
        exact ⟨l, by simp [hl], hlidx⟩
    have hr₀src := (hrsmem r₀ hr₀mem).1
    have hr₀op := (hrsmem r₀ hr₀mem).2
    have hr₀uops : r₀ ∈ uops := hmem r₀ hr₀src hr₀op
    have hmlt : m < uops.length := by
      rw [← hr₀idx]
      exact List.indexOf_lt_length.mpr hr₀uops
    have hget : uops[m]? = some r₀ := by
      rw [← hr₀idx]
      rw [List.getElem?_eq_getElem (by rw [hr₀idx]; exact hmlt)]
      rw [List.getElem_indexOf (by rw [hr₀idx]; exact hmlt)]
    have htake : (uops.take m).length = m := by
      rw [List.length_take]
      omega
    refine ⟨m, r₀, hstep, hr₀src, hr₀op, hget, ?_, ?_, ?_⟩
    · rw [hstep, List.getElem?_append]
      rw [if_neg (by omega)]
      rw [htake]
      simp
    · rw [hstep, List.getElem?_append]
      rw [if_neg (by omega)]
      rw [htake]
      have : m + 1 - m = 1 := by omega
      rw [this]
      simp only [List.getElem?_cons_succ]
      rw [List.getElem?_drop]
      rw [Nat.add_zero]
      exact hget
    · intro l hl hlop
      have : l ∈ a :: as := by
        rw [← hflt]
        exact List.mem_filter.mpr ⟨hl, by simp [hlop]⟩
      rcases List.mem_cons.mp this with h1 | h1
      · subst h1
        exact foldl_min_le _ _ _ (by simp)
      · exact foldl_min_le _ _ _ (by simp [List.mem_map_of_mem _ h1])

/-- Witness for C7 (amended): emitting `accC7` into `[constI 9, rngC7]`
inserts it at index 1, immediately before its only RANGE dependency. -/
theorem c7_witness :
    ∃ m r₀, emit_step [constI 9, rngC7] accC7
        = ([constI 9, rngC7].take m) ++ accC7 :: ([constI 9, rngC7].drop m)
      ∧ r₀ ∈ accC7.src ∧ r₀.op = .RANGE ∧ [constI 9, rngC7][m]? = some r₀
      ∧ (emit_step [constI 9, rngC7] accC7)[m]? = some accC7
      ∧ (emit_step [constI 9, rngC7] accC7)[m + 1]? = some r₀
      ∧ (∀ l ∈ accC7.src, l.op = .RANGE → m ≤ [constI 9, rngC7].indexOf l) :=
  c7_define_acc_before_earliest_range [constI 9, rngC7] accC7 rfl
    ⟨rngC7, by decide, rfl⟩ (by decide)

/-! ## C8: the mod-folding rule of `constant_folder`
(codegen/uopgraph.py line 246) -/

/-- `dtypes.min(int32)`. -/
def INT32_MIN : Int := -(2 ^ 31)

/-- `dtypes.max(int32)`. -/
def INT32_MAX : Int := 2 ^ 31 - 1

/-- Modelled from the spec: `UOp.vmin`/`UOp.vmax` live in
`codegen/uops.py`, which is not under src/.  Per the spec every node
carries derivable bounds; modelled for the shapes the rule consumes: a
CONST is its value, a `RANGE(a, b)` spans `[a, b)`, a `SPECIAL` of size
`s` spans `[0, s)`, ADD sums the bounds, and everything else falls back
to the int32 dtype extrema. -/
def ubounds : UOp → Int × Int
  | .mk .CONST _ _ (.int n) => (n, n)
  | .mk .RANGE _ [.mk .CONST _ _ (.int a), .mk .CONST _ _ (.int b)] _ => (a, b - 1)
  | .mk .SPECIAL _ _ (.special _ s) => (0, s - 1)
  | .mk .ALU _ [a, b] (.alu .ADD) =>
    ((ubounds a).1 + (ubounds b).1, (ubounds a).2 + (ubounds b).2)
  | _ => (INT32_MIN, INT32_MAX)

/-- `x.vmin.arg`. -/
def vmin (u : UOp) : Int := (ubounds u).1

/-- `x.vmax.arg`. -/
def vmax (u : UOp) : Int := (ubounds u).2

/-- The mod-folding rule builder (uopgraph.py line 246): matched on
`x % c` with `c` a constant, it returns `x` iff
`0 <= x.vmin.arg <= x.vmax.arg < c.arg`. -/
def mod_folding (x c : UOp) : Option UOp :=
  match c.arg with
  | .int cv =>
    if 0 ≤ vmin x ∧ vmin x ≤ vmax x ∧ vmax x < cv then some x else Option.none
  | _ => Option.none

theorem uveal_umod (env : UOp → Int) (a b : UOp) :
    uveal env (umod a b) = Int.emod (uveal env a) (uveal env b) := rfl

/-- C8: the UOp-level mod strength-reduction rule fires — rewriting
`x % c` to `x` — exactly when `0 ≤ x.vmin ≤ x.vmax < c`; when the bound
precondition fails it does not fire (returns none, never another term);
and whenever it fires, the rewrite is sound: in any environment in which
`x`'s value lies within its reported bounds, `x % c` and `x` evaluate
equally. -/
theorem c8_mod_folding (x : UOp) (cv : Int) (hc : 0 < cv) :
    (mod_folding x (constI cv) = some x
      ↔ (0 ≤ vmin x ∧ vmin x ≤ vmax x ∧ vmax x < cv))
    ∧ (¬ (0 ≤ vmin x ∧ vmin x ≤ vmax x ∧ vmax x < cv) →
        mod_folding x (constI cv) = Option.none)
    ∧ (∀ env : UOp → Int, vmin x ≤ uveal env x → uveal env x ≤ vmax x →
        mod_folding x (constI cv) = some x →
        uveal env (umod x (constI cv)) = uveal env x) := by
  refine ⟨?_, ?_, ?_⟩
  · constructor
    · intro h
      unfold mod_folding at h
      simp only [constI, UOp.arg] at h
      by_cases hcond : 0 ≤ vmin x ∧ vmin x ≤ vmax x ∧ vmax x < cv
      · exact hcond
      · rw [if_neg hcond] at h
        exact absurd h (by simp)
    · intro hcond
      unfold mod_folding
      simp only [constI, UOp.arg]
      rw [if_pos hcond]
  · intro hcond
    unfold mod_folding
    simp only [constI, UOp.arg]
    rw [if_neg hcond]
  · intro env hlo hhi hfire
    unfold mod_folding at hfire
    simp only [constI, UOp.arg] at hfire
    by_cases hcond : 0 ≤ vmin x ∧ vmin x ≤ vmax x ∧ vmax x < cv
    · rw [uveal_umod, uveal_constI]
      exact Int.emod_eq_of_lt (by omega) (by omega)
    · rw [if_neg hcond] at hfire
      exact absurd hfire (by simp)

/-- The SPECIAL index `gidx0` of size 8 used by the C8 witness (bounds
`[0, 7]`). -/
def xC8 : UOp := .mk .SPECIAL .pyint [] (.special "gidx0" 8)

/-- Witness for C8: `gidx0 % 8` with `gidx0` bounded by `[0, 7]` fires
and is sound at the concrete value 3. -/
theorem c8_witness :
    mod_folding xC8 (constI 8) = some xC8
    ∧ uveal (fun _ => 3) (umod xC8 (constI 8)) = uveal (fun _ => 3) xC8 := by
  have h := c8_mod_folding xC8 8 (by decide)
  exact ⟨h.1.mpr (by decide),
    h.2.2 (fun _ => 3) (by decide) (by decide) (h.1.mpr (by decide))⟩

/-! ## C9: kernel naming (codegen/linearizer.py lines 146-148) -/

/-- The kernel name derivation (linearizer.py line 147):
`("r_" if self.reduceop else "E_") + '_'.join(str(x) for x in
self.full_shape)`. -/
def function_name (hasReduce : Bool) (full_shape : List Nat) : String :=
  (if hasReduce then "r_" else "E_") ++ String.intercalate "_" (full_shape.map toString)

/-- C9 counterexample: the elementwise kernel of full shape `(4,)` is
named `"E_4"`, not `"ew_4"`, and the reduce kernel `"r_4"`, not
`"re_4"`: the prefixes of the claim do not match the code. -/
theorem c9_counterexample :
    function_name false [4] ≠ "ew_4" ∧ function_name false [4] = "E_4"
    ∧ function_name true [4] ≠ "re_4" ∧ function_name true [4] = "r_4" := by
  refine ⟨?_, by decide, ?_, by decide⟩ <;> decide

/-- C9 (amended): the derived kernel name is the prefix `"E_"` for an
elementwise kernel or `"r_"` for a reduce kernel, followed by the full
shape joined with underscores; the name is a pure function of those
inputs (the same kernel always receives the same name), and the prefix
separates the two kernel classes: no reduce kernel ever shares a name
with an elementwise kernel. -/
theorem c9_function_name_amended :
    (∀ s : List Nat,
      function_name false s = "E_" ++ String.intercalate "_" (s.map toString)
      ∧ function_name true s = "r_" ++ String.intercalate "_" (s.map toString))
    ∧ (∀ s t : List Nat, function_name true s ≠ function_name false t) := by
  constructor
  · intro s
    exact ⟨rfl, rfl⟩
  · intro s t h
    unfold function_name at h
    rw [if_pos rfl, if_neg (by simp)] at h
    have h2 : ("r_" ++ String.intercalate "_" (s.map toString)).data
        = ("E_" ++ String.intercalate "_" (t.map toString)).data := by rw [h]
    rw [String.data_append, String.data_append] at h2
    have h3 : ('r' :: '_' :: (String.intercalate "_" (s.map toString)).data)
        = ('E' :: '_' :: (String.intercalate "_" (t.map toString)).data) := h2
    simp at h3

/-- Witness for C9 (amended): concrete names for shape `(3, 5)`. -/
theorem c9_witness :
    function_name false [3, 5] = "E_" ++ String.intercalate "_" ([3, 5].map toString)
    ∧ function_name true [3, 5] ≠ function_name false [3, 5] :=
  ⟨(c9_function_name_amended.1 [3, 5]).1, c9_function_name_amended.2 [3, 5] [3, 5]⟩

/-! ## C10: the multiplicative-zero rule of `constant_folder`
(codegen/uopgraph.py lines 221-225) -/

/-- Python `isinstance(x.arg, float) and (math.isnan(x.arg) or
math.isinf(x.arg))`. -/
def isFltNanInf : UArg → Bool
  | .flt .nan => true
  | .flt .inf => true
  | .flt .ninf => true
  | _ => false

/-- `x.const(0)`: a CONST of `x`'s dtype holding zero. -/
def constZero (dt : DTy) : UOp :=
  match dt with
  | .float32 => .mk .CONST dt [] (.flt (.fin 0))
  | .float16 => .mk .CONST dt [] (.flt (.fin 0))
  | .bool => .mk .CONST dt [] (.boolean false)
  | _ => .mk .CONST dt [] (.int 0)

/-- `x.const(float('nan'))`: a CONST of `x`'s dtype holding NaN. -/
def constNan (dt : DTy) : UOp := .mk .CONST dt [] (.flt .nan)

/-- Whether a UOp is the literal constant `0` matched by the `* 0`
pattern (`NOp.const(None, 0)`: a CONST of any dtype whose arg equals 0;
Python `0 == 0.0 == False`). -/
def isZeroConst : UOp → Bool
  | .mk .CONST _ _ (.int n) => n == 0
  | .mk .CONST _ _ (.flt (.fin n)) => n == 0
  | .mk .CONST _ _ (.boolean b) => b == false
  | _ => false

/-- The mul-by-zero rule (uopgraph.py line 225): matches `x * 0` — in
either operand order, ALU MUL patterns matching commutatively — and
rewrites to `x.const(float('nan'))` when `x.arg` is a float NaN or
infinity, else to `x.const(0)`. -/
def mul_zero_fold : UOp → Option UOp
  | .mk .ALU _ [a, b] (.alu .MUL) =>
    if isZeroConst b then
      some (if isFltNanInf a.arg then constNan a.dtype else constZero a.dtype)
    else if isZeroConst a then
      some (if isFltNanInf b.arg then constNan b.dtype else constZero b.dtype)
    else Option.none
  | _ => Option.none

/-- C10: for well-formed UOps (float payloads occur only in CONST args,
`hwf`), `x * 0` rewrites to the zero constant of `x`'s dtype for every
`x` except a CONST whose float value is NaN or infinite, which rewrites
to NaN instead; the rule also fires with the zero on the left; and it
fires on non-CONST `x` (a LOAD of a runtime NaN included), always
producing 0 there. -/
theorem c10_mul_zero_fold (x z : UOp) (hz : isZeroConst z = true)
    (hwf : x.op ≠ UOpKind.CONST → isFltNanInf x.arg = false) :
    (isFltNanInf x.arg = true →
      mul_zero_fold (umul x z) = some (constNan x.dtype))
    ∧ (isFltNanInf x.arg = false →
      mul_zero_fold (umul x z) = some (constZero x.dtype))
    ∧ (x.op ≠ UOpKind.CONST →
      mul_zero_fold (umul x z) = some (constZero x.dtype))
    ∧ (isZeroConst x = false →
      mul_zero_fold (umul z x) = some (constZero x.dtype) ∨
      mul_zero_fold (umul z x) = some (constNan x.dtype)) := by
  have hstep : mul_zero_fold (umul x z)
      = some (if isFltNanInf x.arg then constNan x.dtype else constZero x.dtype) := by
    show (if isZeroConst z then
        some (if isFltNanInf x.arg then constNan x.dtype else constZero x.dtype)
      else if isZeroConst x then
        some (if isFltNanInf z.arg then constNan z.dtype else constZero z.dtype)
      else Option.none) = _
    rw [hz]
    simp
  refine ⟨?_, ?_, ?_, ?_⟩
  · intro hnan
    rw [hstep, hnan]
    simp
  · intro hnum
    rw [hstep, hnum]
    simp
  · intro hnc
    rw [hstep, hwf hnc]
    simp
  · intro hxz
    have hstep2 : mul_zero_fold (umul z x)
        = some (if isFltNanInf x.arg then constNan x.dtype else constZero x.dtype) := by
      show (if isZeroConst x then
          some (if isFltNanInf z.arg then constNan z.dtype else constZero z.dtype)
        else if isZeroConst z then
          some (if isFltNanInf x.arg then constNan x.dtype else constZero x.dtype)
        else Option.none) = _
      rw [hxz, hz]
      simp
    cases hfn : isFltNanInf x.arg with
    | false => left; rw [hstep2, hfn]; simp
    | true => right; rw [hstep2, hfn]; simp

/-- A runtime value (LOAD) of float dtype: even if it holds NaN at run
time, its `arg` is not a float, so the rule folds it to 0. -/
def loadC10 : UOp := .mk .LOAD .float32 [] .none

/-- The float zero constant. -/
def zeroF : UOp := .mk .CONST .float32 [] (.flt (.fin 0))

/-- Witness for C10: a NaN CONST times 0 folds to NaN; a LOAD (runtime
value, possibly NaN) times 0 folds to the 0 constant. -/
theorem c10_witness :
    mul_zero_fold (umul (UOp.mk .CONST .float32 [] (.flt .nan)) zeroF)
        = some (constNan .float32)
    ∧ mul_zero_fold (umul loadC10 zeroF) = some (constZero .float32) :=
  ⟨(c10_mul_zero_fold (UOp.mk .CONST .float32 [] (.flt .nan)) zeroF (by decide)
      (fun h => absurd rfl h)).1 (by decide),
   (c10_mul_zero_fold loadC10 zeroF (by decide) (fun _ => by decide)).2.2.1
      (by decide)⟩

end TG
